import Mathlib

/-!
Shallow embedding of the Telewrapper routing core (`src/index.ts`).

Strings are modelled as `List Char`, chat identifiers as `Int`, timestamps
as `Int` (seconds for `msg.date`, milliseconds for `startTime`).  Handler
callbacks are identified by `Nat` tags; the observable behaviour of a
dispatch is the ordered trace of calls it performs (`Call` / `QCall`).
Compiled regular expressions are modelled as abstract match functions
(`pexec`), and the `deleteIfMentioned` side effect is abstracted by a
boolean `mentioned` field on the message.
-/

namespace Telewrapper

/-- JavaScript `\w` character class: ASCII letters, digits and underscore. -/
def isWordChar (c : Char) : Bool := c.isAlphanum || c == '_'

/-- `extractCommand` (index.ts:234-239): run `^/\w+` against the text and
return the match minus the leading slash, or the empty string. -/
def extractCommand (text : List Char) : List Char :=
  match text with
  | [] => []
  | c :: rest =>
    if c = '/' then
      let tok := rest.takeWhile isWordChar
      if tok.isEmpty then [] else tok
    else []

/-- `toLocaleLowerCase`, restricted to the ASCII command tokens the wrapper
stores (per-character lowering). -/
def toLowerStr (t : List Char) : List Char := t.map Char.toLower

/-- An inbound Telegram message, reduced to the fields the routing core
reads.  `mentioned` abstracts the condition tested by `deleteIfMentioned`. -/
structure Msg where
  chatId : Int
  messageId : Int
  date : Int
  text : Option (List Char)
  hasAudio : Bool
  mentioned : Bool
deriving DecidableEq, Repr

/-- Truthiness of `msg.text` in JavaScript: present and non-empty. -/
def textTruthy (m : Msg) : Bool :=
  match m.text with
  | some t => !t.isEmpty
  | none => false

/-- `msg?.text ?? ''`. -/
def getText (m : Msg) : List Char := m.text.getD []

/-- `ICommand` (index.ts:7-12); the callback is identified by `tag`. -/
structure CmdEntry where
  command : List Char
  chatIDs : List Int
  desc : List Char
  tag : Nat
deriving DecidableEq, Repr

/-- `IRegexCmd` (index.ts:15-20); `pexec` models `regex.exec`, returning an
abstract match result. -/
structure PatEntry where
  pexec : List Char → Option Nat
  chatIDs : List Int
  tag : Nat

/-- `IAnyCmd` (index.ts:23-26), used for both `anyList` and `audioList`. -/
structure AnyEntry where
  chatIDs : List Int
  tag : Nat
deriving DecidableEq, Repr

/-- `IInvalidCmd` (index.ts:29-31); `ret` models the boolean-returning
callback. -/
structure InvEntry where
  ret : Msg → Bool → Bool
  tag : Nat

/-- The mutable wrapper state the message path reads (index.ts:41-55). -/
structure State where
  validChats : List Int
  debugChat : Int
  startTimeMs : Int
  commandList : List (List Char × CmdEntry)
  regexList : List PatEntry
  anyList : List AnyEntry
  audioList : List AnyEntry
  invalidList : List InvEntry

/-- `getValidChats` (index.ts:555-559). -/
def getValidChats (s : State) : List Int :=
  if s.debugChat == 0 then s.validChats else s.debugChat :: s.validChats

/-- One observable call performed while dispatching a message.
`cmdStored`/`patStored` are invocations of the stored descriptor callbacks
(the bound `commandBase`/`regexBase` wrappers); `cmd`/`pat` are the
application callbacks the wrappers forward to after the gate passes. -/
inductive Call where
  | cmdStored (tag : Nat)
  | cmd (tag : Nat) (content : List Char)
  | patStored (tag : Nat) (handled : Bool) (res : Nat)
  | pat (tag : Nat) (handled : Bool) (res : Nat)
  | audio (tag : Nat) (handled : Bool)
  | anyCall (tag : Nat) (handled : Bool)
  | invalid (tag : Nat) (handled : Bool)
  | report (validChat : Bool)
  | delMention
deriving DecidableEq, Repr

def isUserCmd : Call → Bool
  | Call.cmd _ _ => true
  | _ => false

def isUserPat : Call → Bool
  | Call.pat _ _ _ => true
  | _ => false

def isPatStored : Call → Bool
  | Call.patStored _ _ _ => true
  | _ => false

def isInvalid : Call → Bool
  | Call.invalid _ _ => true
  | _ => false

def isReport : Call → Bool
  | Call.report _ => true
  | _ => false

def invTag : Call → Nat
  | Call.invalid t _ => t
  | _ => 0

/-- The accumulated `handled` flag of the `invalidList.forEach` loop in
`validCommand` (index.ts:499-501): `handled = c.callback(msg, handled) || handled`. -/
def runInvalidFlag (l : List InvEntry) (msg : Msg) (h : Bool) : Bool :=
  match l with
  | [] => h
  | c :: rest => runInvalidFlag rest msg (c.ret msg h || h)

/-- The invocations performed by the same loop, in order, each receiving the
running `handled` value. -/
def runInvalidCalls (l : List InvEntry) (msg : Msg) (h : Bool) : List Call :=
  match l with
  | [] => []
  | c :: rest => Call.invalid c.tag h :: runInvalidCalls rest msg (c.ret msg h || h)

/-- `validCommand` (index.ts:480-507).  Returns the boolean result together
with the trace of invalid-handler invocations and the unauthorized report
(`reportInvalidCommand`, index.ts:509-525, modelled as `Call.report valid`). -/
def validCommand (s : State) (msg : Msg) (ids : List Int) (rgx : Bool) : Bool × List Call :=
  if msg.date * 1000 < s.startTimeMs then (false, [])
  else if ids.contains msg.chatId then (true, [])
  else if (getValidChats s).contains msg.chatId && ids.isEmpty then (true, [])
  else if (getValidChats s).contains msg.chatId && rgx then (false, [])
  else
    (false,
      (if !(getValidChats s).contains msg.chatId
       then runInvalidCalls s.invalidList msg false else [])
        ++ if (if !(getValidChats s).contains msg.chatId
               then runInvalidFlag s.invalidList msg false else false)
           then []
           else [Call.report ((getValidChats s).contains msg.chatId)])

/-- `msg.text?.replace(/[^ ]+ ?/, '') ?? ''` (index.ts:194): remove the first
run of non-space characters plus at most one following space. -/
def stripFirstWord (t : List Char) : List Char :=
  let pre := t.takeWhile (fun c => c == ' ')
  let rest := t.dropWhile (fun c => c == ' ')
  let after := rest.dropWhile (fun c => c != ' ')
  pre ++ (match after with
          | ' ' :: r => r
          | other => other)

/-- `commandBase` (index.ts:191-196): gate, then forward to the registered
command callback with the remainder text. -/
def commandBase (s : State) (c : CmdEntry) (msg : Msg) : List Call :=
  let g := validCommand s msg c.chatIDs false
  g.2 ++ if g.1 then [Call.cmd c.tag (stripFirstWord (getText msg))] else []

/-- `regexBase` (index.ts:206-210): gate in pattern mode, then forward. -/
def regexBase (s : State) (p : PatEntry) (msg : Msg) (handled : Bool) (r : Nat) : List Call :=
  let g := validCommand s msg p.chatIDs true
  g.2 ++ if g.1 then [Call.pat p.tag handled r] else []

/-- `deleteIfMentioned` (index.ts:259-265), abstracted by `msg.mentioned`. -/
def delMentionCalls (msg : Msg) : List Call :=
  if msg.mentioned then [Call.delMention] else []

/-- The regex loop of the message handler (index.ts:99-108): try each stored
pattern in order; on a match, run the mention-delete side effect and invoke
the stored callback with the running `handled` flag, which becomes true
after the first match. -/
def patStage (s : State) (msg : Msg) (l : List PatEntry) (handled : Bool) : List Call :=
  match l with
  | [] => []
  | p :: rest =>
    match p.pexec (getText msg) with
    | none => patStage s msg rest handled
    | some r =>
      delMentionCalls msg ++ (Call.patStored p.tag handled r :: regexBase s p msg handled r)
        ++ patStage s msg rest true

/-- Whether any stored pattern matches, i.e. whether the loop sets `handled`. -/
def patMatched (l : List PatEntry) (text : List Char) : Bool :=
  l.any (fun p => (p.pexec text).isSome)

/-- Scope test of the audio / catch-all loops (index.ts:113 and 121):
`c.chatIDs.includes(msg.chat.id) || !c.chatIDs.length`. -/
def scopeHit (ids : List Int) (chat : Int) : Bool := ids.contains chat || ids.isEmpty

/-- The audio loop (index.ts:110-117). -/
def audioStage (msg : Msg) (l : List AnyEntry) (handled : Bool) : List Call :=
  (l.filter (fun c => scopeHit c.chatIDs msg.chatId)).map (fun c => Call.audio c.tag handled)

/-- The catch-all loop (index.ts:119-124). -/
def anyStage (msg : Msg) (l : List AnyEntry) (handled : Bool) : List Call :=
  (l.filter (fun c => scopeHit c.chatIDs msg.chatId)).map (fun c => Call.anyCall c.tag handled)

/-- Object-key lookup in `commandList`. -/
def lookupCmd (l : List (List Char × CmdEntry)) (k : List Char) : Option CmdEntry :=
  (l.find? (fun kv => kv.1 == k)).map (fun kv => kv.2)

/-- The command stage of the message handler (index.ts:90-96). -/
def cmdStage (s : State) (msg : Msg) : List Call :=
  match (if textTruthy msg then
           lookupCmd s.commandList (toLowerStr (extractCommand (getText msg)))
         else none) with
  | some c => delMentionCalls msg ++ Call.cmdStored c.tag :: commandBase s c msg
  | none => []

/-- Whether the command stage set `handled`. -/
def cmdHandled (s : State) (msg : Msg) : Bool :=
  (if textTruthy msg then
     lookupCmd s.commandList (toLowerStr (extractCommand (getText msg)))
   else none).isSome

/-- The value of `handled` after the command and regex stages. -/
def handledAfterPats (s : State) (msg : Msg) : Bool :=
  cmdHandled s msg
    || (textTruthy msg && !cmdHandled s msg && patMatched s.regexList (getText msg))

/-- The `message` event handler (index.ts:85-129): command stage, regex
stage (only when not handled), audio loop, catch-all loop. -/
def dispatch (s : State) (msg : Msg) : List Call :=
  cmdStage s msg
    ++ (if textTruthy msg && !cmdHandled s msg then patStage s msg s.regexList false else [])
    ++ (if msg.hasAudio then audioStage msg s.audioList (handledAfterPats s msg) else [])
    ++ anyStage msg s.anyList (handledAfterPats s msg)

/-- `addValidChat` (index.ts:536-544); the duplicate-add soft error only
logs, so the state is unchanged in that branch. -/
def addValidChat (s : State) (id : Int) : State :=
  if id == 0 then s
  else if s.validChats.contains id then s
  else { s with validChats := s.validChats ++ [id] }

/-- `onBase` (index.ts:164-173); note the source snapshots `getValidChats()`
once before the loop. -/
def onBase (s : State) (ids : List Int) : State :=
  let valids := getValidChats s
  ids.foldl (fun acc id => if valids.contains id then acc else addValidChat acc id) s

/-- `command.match('\\W+')`: the token contains a non-word character. -/
def hasIllegal (cmd : List Char) : Bool := cmd.any (fun c => !isWordChar c)

/-- JavaScript object property assignment on `commandList`: replace the value
when the key exists, otherwise append. -/
def insertCmd (l : List (List Char × CmdEntry)) (k : List Char) (v : CmdEntry) :
    List (List Char × CmdEntry) :=
  match l with
  | [] => [(k, v)]
  | kv :: rest => if kv.1 == k then (k, v) :: rest else kv :: insertCmd rest k v

/-- `onCommand` (index.ts:175-189).  The duplicate check reads
`commandList[command]` with the raw token, while storage happens under
`command.toLocaleLowerCase()`. -/
def onCommand (s : State) (command : List Char) (chatIDs : List Int) (tag : Nat)
    (desc : Option (List Char)) : State :=
  let s1 := onBase s chatIDs
  if hasIllegal command then s1
  else if (lookupCmd s1.commandList command).isSome then s1
  else { s1 with
          commandList :=
            insertCmd s1.commandList (toLowerStr command)
              ⟨command, chatIDs, desc.getD ("(empty)".toList), tag⟩ }

/-- `messageListAppend` (index.ts:529-534): push, and once the length reaches
`messageListLength` slice down to the most recent tenth.  The JavaScript
slice start `length - cap / 10` (a float, truncated toward zero) equals
`length - ceil(cap / 10)`; `(cap + 9) / 10` is that ceiling in `Nat`. -/
def messageListAppend (cap : Nat) (list : List Msg) (msg : Msg) : List Msg :=
  let l := list ++ [msg]
  if cap ≤ l.length then l.drop (l.length - (cap + 9) / 10) else l

/-- `messageEqual` (index.ts:476-478). -/
def messageEqual (m1 m2 : Msg) : Bool :=
  m1.chatId == m2.chatId && m1.messageId == m2.messageId

/-- `exclude_msgs?.find(msg => this.messageEqual(msg, value))` is defined
(a null exclude list behaves like an empty one). -/
def excludedIn (ex : List Msg) (m : Msg) : Bool :=
  (ex.find? (fun e => messageEqual e m)).isSome

/-- `clearMessages` (index.ts:454-474): walk the stored list; in-scope
entries are either deleted (first component, best-effort, failures swallowed
by the `try`/`catch` around `Promise.all`) or retained when excluded (second
component, the new `messageList`).  Out-of-scope entries reach neither
list. -/
def clearMessages (ml : List Msg) (ids : List Int) (ex : List Msg) :
    List Msg × List Msg :=
  match ml with
  | [] => ([], [])
  | m :: rest =>
    let p := clearMessages rest ids ex
    if ids.contains m.chatId then
      if excludedIn ex m then (p.1, m :: p.2) else (m :: p.1, p.2)
    else p

/-- The value a button callback produces: a string, `void`, or a promise. -/
inductive BtnRet where
  | str (s : List Char)
  | unitRet
  | promRet
deriving DecidableEq, Repr

/-- A button-press callback event (`TelegramBot.CallbackQuery`), reduced to
the fields read by the handler.  `qmsg` is `query.message?.chat.id` together
with the presence of `query.message`. -/
structure Query where
  qid : List Char
  qdata : Option (List Char)
  qmsg : Option Int

/-- `IButtonCmd` (index.ts:34-37); `run` may throw (`Except.error`). -/
structure BtnEntry where
  name : List Char
  tag : Nat
  run : Query → Except Unit BtnRet

/-- Object-key lookup in `buttonList` by `query.data`. -/
def lookupBtn (l : List BtnEntry) (d : Option (List Char)) : Option BtnEntry :=
  match d with
  | none => none
  | some k => l.find? (fun b => b.name == k)

/-- One observable call of the `callback_query` handler. -/
inductive QCall where
  | btnRun (tag : Nat)
  | answer (qid : List Char) (text : Option (List Char)) (alert : Option Bool)
  | delMsg
  | sendNotice (chat : Int)
  | errNotice
  | wait (ms : Nat)
  | delNotice
  | errCaught
deriving DecidableEq, Repr

def isAnswer : QCall → Bool
  | QCall.answer _ _ _ => true
  | _ => false

/-- `answer.replace(/^!/, '')`. -/
def stripBang (a : List Char) : List Char :=
  match a with
  | '!' :: r => r
  | other => other

/-- `answer.match(/^!/)` is non-null. -/
def leadBang (a : List Char) : Bool :=
  match a with
  | '!' :: _ => true
  | _ => false

/-- The `callback_query` event handler (index.ts:131-161).  Known identifier:
run the callback synchronously, then `answerCallbackQuery` with the optional
text/alert derived from a string result; a synchronously throwing callback
lands in the handler's `catch` (`errCaught`).  Unknown identifier: the
un-awaited `deleteMessage(query.message)` at index.ts:139 fires and forgets
(when `query.message` is undefined its internal `TypeError` only rejects an
unobserved promise, deleting nothing — the handler's `try`/`catch` never
sees it); the handler then awaits the notice: to the origin chat when its
id is truthy (a failing `sendMessage` there is awaited, so it does reach
the `catch`), else via `sendError`, which yields a deletable notice only
when a debug chat is configured; then wait, delete the notice, and
`return` — reaching `answerCallbackQuery` in no branch. -/
def queryDispatch (s : State) (btns : List BtnEntry) (q : Query) : List QCall :=
  match lookupBtn btns q.qdata with
  | some b =>
    match b.run q with
    | Except.error _ => [QCall.btnRun b.tag, QCall.errCaught]
    | Except.ok ret =>
      let answer := match ret with
                    | BtnRet.str a => a
                    | _ => []
      [QCall.btnRun b.tag,
       QCall.answer q.qid
         (if answer.isEmpty then none else some (stripBang answer))
         (if answer.isEmpty then none
          else if leadBang answer then some true else none)]
  | none =>
    match q.qmsg with
    | none =>
      QCall.errNotice ::
        (if s.debugChat == 0 then [] else [QCall.wait 3000, QCall.delNotice])
    | some cid =>
      if cid == 0 then
        QCall.delMsg :: QCall.errNotice ::
          (if s.debugChat == 0 then [] else [QCall.wait 3000, QCall.delNotice])
      else if (getValidChats s).contains cid then
        [QCall.delMsg, QCall.sendNotice cid, QCall.wait 3000, QCall.delNotice]
      else
        [QCall.delMsg, QCall.errNotice, QCall.errCaught]

/-- Spec-side description of the regex stage (§4.3 step 3): the stored
pattern callbacks that fire are exactly the matching patterns in
registration order, the first with `handled = false` and all later ones with
`handled = true`, each with its own match result.  Used to compare the
dispatcher trace against the spec's words. -/
def expectedPat (l : List PatEntry) (text : List Char) (h : Bool) : List Call :=
  match l with
  | [] => []
  | p :: rest =>
    match p.pexec text with
    | none => expectedPat rest text h
    | some r => Call.patStored p.tag h r :: expectedPat rest text true

/-! Concrete instances used by the counterexamples and witnesses. -/

/-- A fresh wrapper state with nothing registered. -/
def emptyState : State := ⟨[], 0, 0, [], [], [], [], []⟩

/-- A simple stored message for outbox scenarios. -/
def mkM (i : Nat) : Msg := ⟨(i : Int), (i : Int), 0, none, false, false⟩

/-- Wrapper started at t = 1000000 ms with command `ping` for chat 1 and one
catch-all with empty scope. -/
def s1 : State :=
  ⟨[1], 0, 1000000,
   [("ping".toList, ⟨"ping".toList, [1], "(empty)".toList, 1⟩)], [], [⟨[], 0⟩], [], []⟩

/-- A message sent before `s1`'s start time whose text matches the
registered command. -/
def staleMsg : Msg := ⟨1, 1, 500, some ("/ping".toList), false, false⟩

/-- Chat 1 authorized, one catch-all with empty scope. -/
def s3 : State := ⟨[1], 0, 0, [], [], [⟨[], 0⟩], [], []⟩

/-- A fresh message from unauthorized chat 2. -/
def msg3 : Msg := ⟨2, 1, 1, none, false, false⟩

/-- Chat 5 authorized, one registered invalid handler. -/
def s4 : State := ⟨[5], 0, 0, [], [], [], [], [⟨fun _ _ => true, 0⟩]⟩

/-- A fresh message from the authorized chat 5. -/
def msg4 : Msg := ⟨5, 1, 1, none, false, false⟩

/-- No authorized chats, two invalid handlers. -/
def sW4 : State :=
  ⟨[], 0, 0, [], [], [], [], [⟨fun _ h => !h, 3⟩, ⟨fun _ _ => false, 4⟩]⟩

/-- A fresh message from unregistered chat 9. -/
def msgW4 : Msg := ⟨9, 1, 1, none, false, false⟩

/-- Chat 5 authorized, no buttons registered. -/
def sC6 : State := ⟨[5], 0, 0, [], [], [], [], []⟩

/-- A button-press event with an unknown identifier, carrying a message in
chat 5. -/
def q6 : Query := ⟨"q1".toList, some ("btn_999".toList), some 5⟩

/-- Command `ping` registered for chat 1, no patterns. -/
def s7 : State :=
  ⟨[1], 0, 0, [("ping".toList, ⟨"ping".toList, [1], "(empty)".toList, 1⟩)], [], [], [], []⟩

/-- A fresh `/ping` message from chat 1. -/
def msg7 : Msg := ⟨1, 2, 1, some ("/ping".toList), false, false⟩

/-- Stored outbox with two chat-1 entries and one chat-2 entry. -/
def msgsC8 : List Msg := [mkM 1, ⟨1, 5, 0, none, false, false⟩, ⟨2, 9, 0, none, false, false⟩]

/-- Exclude set holding the second chat-1 entry. -/
def exC8 : List Msg := [⟨1, 5, 0, none, false, false⟩]

/-! Theorems. -/

lemma takeWhile_append_stop {p : Char → Bool} {t : List Char} {x : Char} (r : List Char)
    (ht : ∀ c ∈ t, p c = true) (hx : p x = false) :
    (t ++ x :: r).takeWhile p = t := by
  induction t with
  | nil => simp [List.takeWhile, hx]
  | cons a t' ih =>
    have ha : p a = true := ht a (by simp)
    simp only [List.cons_append, List.takeWhile, ha, List.append_eq]
    rw [ih (fun c hc => ht c (by simp [hc]))]

/-- C10: for every non-empty word-character token `t`, `extractCommand`
applied to `"/" ++ t ++ " " ++ rest` returns `t` exactly (case preserved);
for any text not starting with `/` it returns the empty string.
`extractCommand` is a pure function of its argument by construction. -/
theorem extract_command_token_spec :
    (∀ (t r : List Char), t ≠ [] → (∀ c ∈ t, isWordChar c = true) →
      extractCommand ('/' :: (t ++ ' ' :: r)) = t)
  ∧ (∀ text : List Char, text.head? ≠ some '/' → extractCommand text = []) := by
  constructor
  · intro t r ht hw
    have hsp : isWordChar ' ' = false := by decide
    have htk : (t ++ ' ' :: r).takeWhile isWordChar = t := takeWhile_append_stop r hw hsp
    have hemp : t.isEmpty = false := by
      cases t with
      | nil => exact absurd rfl ht
      | cons a t' => rfl
    simp [extractCommand, htk, hemp]
  · intro text h
    cases text with
    | nil => rfl
    | cons c rest =>
      have hc : ¬ c = '/' := by
        intro e
        exact h (by simp [e])
      simp [extractCommand, hc]

/-- Witness for C10 at the token `Cmd` and the text `hello`. -/
theorem extract_command_token_spec_witness :
    extractCommand ('/' :: ("Cmd".toList ++ ' ' :: "rest".toList)) = "Cmd".toList
  ∧ extractCommand ("hello".toList) = [] :=
  ⟨extract_command_token_spec.1 _ _ (by decide) (by decide),
   extract_command_token_spec.2 _ (by decide)⟩

/-- C2 (code bug): `onCommand` stores under the case-folded token but checks
for duplicates under the raw token, so re-registering `Ping` passes the
duplicate check and replaces the stored descriptor (tag 1 becomes tag 2),
contradicting the spec invariant that a duplicate registration is rejected
and the first registration kept. -/
theorem duplicate_command_overwrite :
    lookupCmd ((onCommand emptyState ("Ping".toList) [1] 1 none).commandList)
        ("ping".toList)
      = some ⟨"Ping".toList, [1], "(empty)".toList, 1⟩
  ∧ lookupCmd ((onCommand (onCommand emptyState ("Ping".toList) [1] 1 none)
          ("Ping".toList) [1] 2 none).commandList) ("ping".toList)
      = some ⟨"Ping".toList, [1], "(empty)".toList, 2⟩ := by
  constructor
  · rfl
  · rfl

lemma messageListAppend_of_lt {cap : Nat} {acc : List Msg} {m : Msg}
    (h : ¬ cap ≤ acc.length + 1) : messageListAppend cap acc m = acc ++ [m] := by
  simp [messageListAppend, h]

lemma messageListAppend_of_ge {cap : Nat} {acc : List Msg} {m : Msg}
    (h : cap ≤ acc.length + 1) :
    messageListAppend cap acc m = (acc ++ [m]).drop (acc.length + 1 - (cap + 9) / 10) := by
  simp [messageListAppend, h]

lemma foldl_append_no_trunc (cap : Nat) :
    ∀ (l acc : List Msg), acc.length + l.length < cap →
      l.foldl (messageListAppend cap) acc = acc ++ l := by
  intro l
  induction l with
  | nil => intro acc _; simp
  | cons m rest ih =>
    intro acc h
    have hlt : ¬ cap ≤ acc.length + 1 := by
      simp only [List.length_cons] at h
      omega
    have hrec : rest.foldl (messageListAppend cap) (acc ++ [m]) = (acc ++ [m]) ++ rest := by
      apply ih
      simp only [List.length_append, List.length_cons, List.length_nil] at h ⊢
      omega
    simp only [List.foldl_cons, messageListAppend_of_lt hlt, hrec, List.append_assoc,
      List.cons_append, List.nil_append]

lemma list_len_two {r : List Msg} (h : r.length = 2) : ∃ a b, r = [a, b] := by
  cases r with
  | nil => simp at h
  | cons a t =>
    cases t with
    | nil => simp at h
    | cons b t2 =>
      cases t2 with
      | nil => exact ⟨a, b, rfl⟩
      | cons c t3 => simp at h

/-- C5 (amended): with capacity `N ≥ 3`, appending `N + 1` entries one at a
time to an empty outbox leaves `⌈N/10⌉ + 1` entries, not `⌈N/10⌉`: the
truncation to the most recent `⌈N/10⌉` fires at the `N`-th append, and the
`(N+1)`-th append lands on top of it.  The survivors are exactly the most
recently appended entries (a suffix of the input). -/
theorem outbox_append_overflow (cap : Nat) (h3 : 3 ≤ cap) (l : List Msg)
    (hl : l.length = cap + 1) :
    l.foldl (messageListAppend cap) [] = l.drop (cap - (cap + 9) / 10)
  ∧ (l.foldl (messageListAppend cap) []).length = (cap + 9) / 10 + 1 := by
  have hc10 : (cap + 9) / 10 * 10 ≤ cap + 9 := Nat.div_mul_le_self _ _
  have hc_lt : (cap + 9) / 10 + 1 < cap := by omega
  have hc_le : (cap + 9) / 10 ≤ cap := by omega
  have hrest : (l.drop (cap - 1)).length = 2 := by
    rw [List.length_drop]; omega
  obtain ⟨a, b, hab⟩ := list_len_two hrest
  obtain ⟨l₁, hl₁, hdecomp⟩ : ∃ l₁ : List Msg, l₁.length = cap - 1 ∧ l = (l₁ ++ [a]) ++ [b] := by
    refine ⟨l.take (cap - 1), by rw [List.length_take]; omega, ?_⟩
    rw [List.append_assoc]
    rw [show ([a] ++ [b] : List Msg) = [a, b] from rfl, ← hab]
    exact (List.take_append_drop _ _).symm
  have hlenA : (l₁ ++ [a]).length = cap := by
    rw [List.length_append, hl₁]
    simp only [List.length_cons, List.length_nil]
    omega
  have hfold₁ : l₁.foldl (messageListAppend cap) [] = l₁ := by
    have := foldl_append_no_trunc cap l₁ []
    simp only [List.length_nil, List.nil_append] at this
    exact this (by omega)
  have hstepA : messageListAppend cap l₁ a
      = (l₁ ++ [a]).drop (cap - (cap + 9) / 10) := by
    rw [messageListAppend_of_ge (by omega)]
    have : l₁.length + 1 - (cap + 9) / 10 = cap - (cap + 9) / 10 := by omega
    rw [this]
  have hlenA' : ((l₁ ++ [a]).drop (cap - (cap + 9) / 10)).length = (cap + 9) / 10 := by
    rw [List.length_drop, hlenA]; omega
  have hstepB : messageListAppend cap ((l₁ ++ [a]).drop (cap - (cap + 9) / 10)) b
      = (l₁ ++ [a]).drop (cap - (cap + 9) / 10) ++ [b] := by
    rw [messageListAppend_of_lt (by rw [hlenA']; omega)]
  have hfold : l.foldl (messageListAppend cap) []
      = (l₁ ++ [a]).drop (cap - (cap + 9) / 10) ++ [b] := by
    rw [hdecomp, List.foldl_append, List.foldl_append]
    simp only [List.foldl_cons, List.foldl_nil]
    rw [hfold₁, hstepA, hstepB]
  constructor
  · rw [hfold, hdecomp]
    conv_rhs => rw [List.drop_append_eq_append_drop]
    have h0 : cap - (cap + 9) / 10 - (l₁ ++ [a]).length = 0 := by
      rw [hlenA]; omega
    rw [h0]
    rfl
  · rw [hfold]
    rw [List.length_append, hlenA']
    simp only [List.length_cons, List.length_nil]

/-- Counterexample for C5 as stated: with capacity 10, appending 11 entries
leaves 2 entries, not `⌈10/10⌉ = 1`. -/
theorem outbox_append_count_mismatch :
    (((List.range 11).map mkM).foldl (messageListAppend 10) []).length = 2
  ∧ (10 + 9) / 10 = 1
  ∧ (((List.range 11).map mkM).foldl (messageListAppend 10) []).length ≠ (10 + 9) / 10 := by
  refine ⟨by decide, by decide, by decide⟩

/-- Witness for C5 at capacity 3 with 4 appended entries. -/
theorem outbox_append_overflow_witness :
    (3 ≤ 3 ∧ ((List.range 4).map mkM).length = 3 + 1)
  ∧ (((List.range 4).map mkM).foldl (messageListAppend 3) []
        = ((List.range 4).map mkM).drop (3 - (3 + 9) / 10)
     ∧ (((List.range 4).map mkM).foldl (messageListAppend 3) []).length
        = (3 + 9) / 10 + 1) :=
  ⟨⟨by decide, by decide⟩, outbox_append_overflow 3 (by decide) _ (by decide)⟩

lemma clearMessages_fst (ml : List Msg) (ids : List Int) (ex : List Msg) :
    (clearMessages ml ids ex).1
      = ml.filter (fun m => ids.contains m.chatId && !excludedIn ex m) := by
  induction ml with
  | nil => rfl
  | cons m rest ih =>
    by_cases h1 : m.chatId ∈ ids <;> cases h2 : excludedIn ex m <;>
      simp [clearMessages, List.filter_cons, h1, h2, ih]

lemma clearMessages_snd (ml : List Msg) (ids : List Int) (ex : List Msg) :
    (clearMessages ml ids ex).2
      = ml.filter (fun m => ids.contains m.chatId && excludedIn ex m) := by
  induction ml with
  | nil => rfl
  | cons m rest ih =>
    by_cases h1 : m.chatId ∈ ids <;> cases h2 : excludedIn ex m <;>
      simp [clearMessages, List.filter_cons, h1, h2, ih]

/-- C9: after `clearMessages`, the retained list is exactly the in-scope
excluded entries, and the deletes issued are exactly the in-scope
non-excluded entries — so every out-of-scope entry is silently dropped from
the retained list without any delete being issued for it. -/
theorem clear_messages_retained_exactly (ml : List Msg) (ids : List Int) (ex : List Msg) :
    (clearMessages ml ids ex).2
      = ml.filter (fun m => ids.contains m.chatId && excludedIn ex m)
  ∧ (clearMessages ml ids ex).1
      = ml.filter (fun m => ids.contains m.chatId && !excludedIn ex m) :=
  ⟨clearMessages_snd ml ids ex, clearMessages_fst ml ids ex⟩

/-- C8: every stored entry whose chat is in scope and which is
identity-equal to no exclude entry has a delete issued and is absent from
the retained list, and every in-scope excluded entry remains retained.  The
retained list is computed independently of the delete results, which models
the swallowed `Promise.all` failures. -/
theorem clear_messages_scope_exclude (ml : List Msg) (ids : List Int) (ex : List Msg)
    (m : Msg) (hm : m ∈ ml) (hin : ids.contains m.chatId = true) :
    (excludedIn ex m = false →
        m ∈ (clearMessages ml ids ex).1 ∧ m ∉ (clearMessages ml ids ex).2)
  ∧ (excludedIn ex m = true → m ∈ (clearMessages ml ids ex).2) := by
  have hin' : m.chatId ∈ ids := by simpa using hin
  constructor
  · intro hex
    constructor
    · rw [clearMessages_fst]
      exact List.mem_filter.mpr ⟨hm, by simp [hin', hex]⟩
    · rw [clearMessages_snd]
      intro hmem
      have := (List.mem_filter.mp hmem).2
      simp [hin', hex] at this
  · intro hex
    rw [clearMessages_snd]
    exact List.mem_filter.mpr ⟨hm, by simp [hin', hex]⟩

/-- Witness for C8 on a three-entry outbox, scope `[1]`, one excluded entry. -/
theorem clear_messages_scope_exclude_witness :
    (mkM 1 ∈ msgsC8 ∧ [(1 : Int)].contains (mkM 1).chatId = true)
  ∧ ((excludedIn exC8 (mkM 1) = false →
        mkM 1 ∈ (clearMessages msgsC8 [1] exC8).1
        ∧ mkM 1 ∉ (clearMessages msgsC8 [1] exC8).2)
     ∧ (excludedIn exC8 (mkM 1) = true → mkM 1 ∈ (clearMessages msgsC8 [1] exC8).2)) :=
  ⟨⟨by decide, by decide⟩,
   clear_messages_scope_exclude msgsC8 [1] exC8 (mkM 1) (by decide) (by decide)⟩

/-- C6 (amended): the originating platform callback is acknowledged
(`answerCallbackQuery` with the event's query id) exactly when the
identifier is found in the button list and the callback returns without
throwing; the unknown-identifier branch returns before the acknowledgement,
and a throwing callback jumps to the catch, skipping it. -/
theorem callback_ack_iff_found_ok (s : State) (btns : List BtnEntry) (q : Query) :
    (∃ txt alert, QCall.answer q.qid txt alert ∈ queryDispatch s btns q)
      ↔ ∃ b, lookupBtn btns q.qdata = some b ∧ ∃ r, b.run q = Except.ok r := by
  cases hb : lookupBtn btns q.qdata with
  | none =>
    simp only [queryDispatch, hb]
    constructor
    · rintro ⟨txt, alert, hmem⟩
      exfalso
      cases hq : q.qmsg with
      | none => by_cases hd : s.debugChat == 0 <;> simp [hq, hd] at hmem
      | some cid =>
        by_cases h0 : cid == 0
        · by_cases hd : s.debugChat == 0 <;> simp [hq, h0, hd] at hmem
        · by_cases h5 : cid ∈ getValidChats s <;> simp [hq, h0, h5] at hmem
    · rintro ⟨b, hb', _⟩
      cases hb'
  | some b =>
    simp only [queryDispatch, hb]
    cases hr : b.run q with
    | error e =>
      constructor
      · rintro ⟨txt, alert, hmem⟩
        simp at hmem
      · rintro ⟨b', hb', r, hr'⟩
        injection hb' with hbe
        rw [← hbe, hr] at hr'
        cases hr'
    | ok ret =>
      constructor
      · intro _
        exact ⟨b, rfl, ret, hr⟩
      · intro _
        exact ⟨_, _, List.mem_cons_of_mem _ (List.mem_cons_self _ _)⟩

/-- Counterexample for C6 as stated: an unknown identifier (`btn_999`) with
a resolvable origin chat runs the notice flow and returns without ever
acknowledging the callback. -/
theorem callback_unknown_branch_no_ack :
    queryDispatch sC6 [] q6
      = [QCall.delMsg, QCall.sendNotice 5, QCall.wait 3000, QCall.delNotice]
  ∧ (queryDispatch sC6 [] q6).all (fun c => !isAnswer c) = true := by
  refine ⟨by rfl, by rfl⟩

/-- C4 (amended): the invalid-handler loop runs only when the chat is not in
the authorized-chat set.  (a) For a non-stale event from an unauthorized
chat outside the handler scope, every registered invalid handler is invoked
in registration order with the OR-accumulated `handled` flag, the
unauthorized report is emitted exactly when no handler claimed the event,
and the gate returns false.  (b) For a non-stale event from an authorized
chat outside a non-empty scope with pattern mode unset, no invalid handler
is invoked, the report is emitted unconditionally, and the gate returns
false. -/
theorem gate_invalid_handler_behavior :
    (∀ (s : State) (msg : Msg) (ids : List Int) (rgx : Bool),
        ¬(msg.date * 1000 < s.startTimeMs) →
        (getValidChats s).contains msg.chatId = false →
        ids.contains msg.chatId = false →
        validCommand s msg ids rgx =
          (false, runInvalidCalls s.invalidList msg false ++
            if runInvalidFlag s.invalidList msg false then [] else [Call.report false]))
  ∧ (∀ (l : List InvEntry) (m : Msg) (h : Bool),
        (runInvalidCalls l m h).map invTag = l.map (fun c => c.tag))
  ∧ (∀ (s : State) (msg : Msg) (ids : List Int),
        ¬(msg.date * 1000 < s.startTimeMs) →
        (getValidChats s).contains msg.chatId = true →
        ids.contains msg.chatId = false →
        ids ≠ [] →
        validCommand s msg ids false = (false, [Call.report true])) := by
  refine ⟨?_, ?_, ?_⟩
  · intro s msg ids rgx h1 h2 h3
    have h2' : msg.chatId ∉ getValidChats s := by simpa using h2
    have h3' : msg.chatId ∉ ids := by simpa using h3
    simp [validCommand, h1, h2', h3']
  · intro l m h
    induction l generalizing h with
    | nil => rfl
    | cons c rest ih => simp [runInvalidCalls, invTag, ih]
  · intro s msg ids h1 h2 h3 h4
    have h5 : ids.isEmpty = false := by
      cases ids with
      | nil => exact absurd rfl h4
      | cons a t => rfl
    have h2' : msg.chatId ∈ getValidChats s := by simpa using h2
    have h3' : msg.chatId ∉ ids := by simpa using h3
    simp [validCommand, h1, h2', h3', h5]

/-- Counterexample for C4 as stated: chat 5 is authorized but outside the
non-empty scope `[7]`, pattern mode unset; one invalid handler is
registered, yet the gate emits the report without invoking it. -/
theorem gate_skips_invalid_handlers_when_chat_valid :
    s4.invalidList.length = 1
  ∧ validCommand s4 msg4 [7] false = (false, [Call.report true])
  ∧ (validCommand s4 msg4 [7] false).2.all (fun x => !isInvalid x) = true := by
  refine ⟨rfl, rfl, rfl⟩

/-- Witness for C4: part (a) on a state with two invalid handlers, part (b)
on the counterexample state. -/
theorem gate_invalid_handler_behavior_witness :
    validCommand sW4 msgW4 [] true =
      (false, runInvalidCalls sW4.invalidList msgW4 false ++
        if runInvalidFlag sW4.invalidList msgW4 false then [] else [Call.report false])
  ∧ (runInvalidCalls sW4.invalidList msgW4 false).map invTag
      = sW4.invalidList.map (fun c => c.tag)
  ∧ validCommand s4 msg4 [7] false = (false, [Call.report true]) :=
  ⟨gate_invalid_handler_behavior.1 sW4 msgW4 [] true (by decide) (by decide) (by decide),
   gate_invalid_handler_behavior.2.1 sW4.invalidList msgW4 false,
   gate_invalid_handler_behavior.2.2 s4 msg4 [7] (by decide) (by decide) (by decide)
     (by decide)⟩

/-! Shape lemmas: which constructors each stage of the message path can
emit. -/

lemma runInvalidCalls_shape {msg : Msg} :
    ∀ (l : List InvEntry) (h : Bool), ∀ x ∈ runInvalidCalls l msg h,
      ∃ t hb, x = Call.invalid t hb := by
  intro l
  induction l with
  | nil =>
    intro h x hx
    simp [runInvalidCalls] at hx
  | cons c rest ih =>
    intro h x hx
    simp only [runInvalidCalls, List.mem_cons] at hx
    rcases hx with rfl | hx
    · exact ⟨c.tag, h, rfl⟩
    · exact ih _ x hx

lemma validCommand_shape {s : State} {msg : Msg} {ids : List Int} {rgx : Bool} :
    ∀ x ∈ (validCommand s msg ids rgx).2,
      (∃ t hb, x = Call.invalid t hb) ∨ ∃ v, x = Call.report v := by
  intro x hx
  unfold validCommand at hx
  split at hx
  · simp at hx
  · split at hx
    · simp at hx
    · split at hx
      · simp at hx
      · split at hx
        · simp at hx
        · rw [List.mem_append] at hx
          rcases hx with hx | hx
          · by_cases hv : (!(getValidChats s).contains msg.chatId) = true
            · rw [if_pos hv] at hx
              exact Or.inl (runInvalidCalls_shape _ _ x hx)
            · rw [if_neg hv] at hx
              simp at hx
          · by_cases hh : (if (!(getValidChats s).contains msg.chatId) = true
                then runInvalidFlag s.invalidList msg false else false) = true
            · rw [if_pos hh] at hx
              simp at hx
            · rw [if_neg hh] at hx
              simp only [List.mem_singleton] at hx
              exact Or.inr ⟨_, hx⟩

lemma commandBase_shape {s : State} {c : CmdEntry} {msg : Msg} :
    ∀ x ∈ commandBase s c msg,
      (∃ t hb, x = Call.invalid t hb) ∨ (∃ v, x = Call.report v)
        ∨ ∃ t cn, x = Call.cmd t cn := by
  intro x hx
  simp only [commandBase, List.mem_append] at hx
  rcases hx with hx | hx
  · rcases validCommand_shape x hx with h | h
    · exact Or.inl h
    · exact Or.inr (Or.inl h)
  · split at hx
    · simp only [List.mem_singleton] at hx
      exact Or.inr (Or.inr ⟨_, _, hx⟩)
    · simp at hx

lemma regexBase_shape {s : State} {p : PatEntry} {msg : Msg} {hb : Bool} {r : Nat} :
    ∀ x ∈ regexBase s p msg hb r,
      (∃ t h2, x = Call.invalid t h2) ∨ (∃ v, x = Call.report v)
        ∨ ∃ t h2 r2, x = Call.pat t h2 r2 := by
  intro x hx
  simp only [regexBase, List.mem_append] at hx
  rcases hx with hx | hx
  · rcases validCommand_shape x hx with h | h
    · exact Or.inl h
    · exact Or.inr (Or.inl h)
  · split at hx
    · simp only [List.mem_singleton] at hx
      exact Or.inr (Or.inr ⟨_, _, _, hx⟩)
    · simp at hx

lemma delMentionCalls_shape {msg : Msg} :
    ∀ x ∈ delMentionCalls msg, x = Call.delMention := by
  intro x hx
  simp only [delMentionCalls] at hx
  split at hx
  · simpa using hx
  · simp at hx

lemma patStage_shape {s : State} {msg : Msg} :
    ∀ (l : List PatEntry) (h : Bool), ∀ x ∈ patStage s msg l h,
      x = Call.delMention
        ∨ (∃ t h2 r2, x = Call.patStored t h2 r2)
        ∨ (∃ t h2, x = Call.invalid t h2)
        ∨ (∃ v, x = Call.report v)
        ∨ ∃ t h2 r2, x = Call.pat t h2 r2 := by
  intro l
  induction l with
  | nil =>
    intro h x hx
    simp [patStage] at hx
  | cons p rest ih =>
    intro h x hx
    simp only [patStage] at hx
    cases hp : p.pexec (getText msg) with
    | none =>
      rw [hp] at hx
      exact ih h x hx
    | some r =>
      rw [hp] at hx
      simp only [List.mem_append, List.mem_cons] at hx
      rcases hx with (hx | hx | hx) | hx
      · exact Or.inl (delMentionCalls_shape x hx)
      · exact Or.inr (Or.inl ⟨_, _, _, hx⟩)
      · rcases regexBase_shape x hx with h1 | h1 | h1
        · exact Or.inr (Or.inr (Or.inl h1))
        · exact Or.inr (Or.inr (Or.inr (Or.inl h1)))
        · exact Or.inr (Or.inr (Or.inr (Or.inr h1)))
      · exact ih true x hx

lemma cmdStage_shape {s : State} {msg : Msg} :
    ∀ x ∈ cmdStage s msg,
      x = Call.delMention
        ∨ (∃ t, x = Call.cmdStored t)
        ∨ (∃ t h2, x = Call.invalid t h2)
        ∨ (∃ v, x = Call.report v)
        ∨ ∃ t cn, x = Call.cmd t cn := by
  intro x hx
  simp only [cmdStage] at hx
  split at hx
  case h_1 c heq =>
    simp only [List.mem_append, List.mem_cons] at hx
    rcases hx with hx | hx | hx
    · exact Or.inl (delMentionCalls_shape x hx)
    · exact Or.inr (Or.inl ⟨_, hx⟩)
    · rcases commandBase_shape x hx with h1 | h1 | h1
      · exact Or.inr (Or.inr (Or.inl h1))
      · exact Or.inr (Or.inr (Or.inr (Or.inl h1)))
      · exact Or.inr (Or.inr (Or.inr (Or.inr h1)))
  case h_2 => simp at hx

lemma audioStage_mem {msg : Msg} {l : List AnyEntry} {h : Bool} {x : Call} :
    x ∈ audioStage msg l h
      ↔ ∃ c, c ∈ l ∧ scopeHit c.chatIDs msg.chatId = true ∧ x = Call.audio c.tag h := by
  simp only [audioStage, List.mem_map, List.mem_filter]
  constructor
  · rintro ⟨c, ⟨hc, hs⟩, rfl⟩
    exact ⟨c, hc, hs, rfl⟩
  · rintro ⟨c, hc, hs, rfl⟩
    exact ⟨c, ⟨hc, hs⟩, rfl⟩

lemma anyStage_mem {msg : Msg} {l : List AnyEntry} {h : Bool} {x : Call} :
    x ∈ anyStage msg l h
      ↔ ∃ c, c ∈ l ∧ scopeHit c.chatIDs msg.chatId = true ∧ x = Call.anyCall c.tag h := by
  simp only [anyStage, List.mem_map, List.mem_filter]
  constructor
  · rintro ⟨c, ⟨hc, hs⟩, rfl⟩
    exact ⟨c, hc, hs, rfl⟩
  · rintro ⟨c, hc, hs, rfl⟩
    exact ⟨c, ⟨hc, hs⟩, rfl⟩

/-- A catch-all call appears in the dispatch trace exactly for the
registered catch-all entries whose scope contains the chat or is empty; no
other stage emits `Call.anyCall`, and the stage performs no authorization
check. -/
lemma dispatch_anyCall_mem {s : State} {msg : Msg} {t : Nat} :
    (∃ h, Call.anyCall t h ∈ dispatch s msg)
      ↔ ∃ c, c ∈ s.anyList ∧ c.tag = t ∧ scopeHit c.chatIDs msg.chatId = true := by
  constructor
  · rintro ⟨h, hx⟩
    unfold dispatch at hx
    rw [List.mem_append] at hx
    rcases hx with hx | hx
    · rw [List.mem_append] at hx
      rcases hx with hx | hx
      · rw [List.mem_append] at hx
        rcases hx with hx | hx
        · rcases cmdStage_shape _ hx with h1 | ⟨_, h1⟩ | ⟨_, _, h1⟩ | ⟨_, h1⟩ | ⟨_, _, h1⟩ <;>
            cases h1
        · split at hx
          · rcases patStage_shape _ _ _ hx with h1 | ⟨_, _, _, h1⟩ | ⟨_, _, h1⟩ | ⟨_, h1⟩
              | ⟨_, _, _, h1⟩ <;> cases h1
          · simp at hx
      · split at hx
        · rcases audioStage_mem.mp hx with ⟨c, _, _, h1⟩
          cases h1
        · simp at hx
    · rcases anyStage_mem.mp hx with ⟨c, hc, hs, h1⟩
      cases h1
      exact ⟨c, hc, rfl, hs⟩
  · rintro ⟨c, hc, rfl, hs⟩
    refine ⟨handledAfterPats s msg, ?_⟩
    unfold dispatch
    rw [List.mem_append]
    exact Or.inr (anyStage_mem.mpr ⟨c, hc, hs, rfl⟩)

/-- An audio call appears in the dispatch trace exactly when the event
carries audio and a registered audio entry's scope contains the chat or is
empty. -/
lemma dispatch_audio_mem {s : State} {msg : Msg} {t : Nat} :
    (∃ h, Call.audio t h ∈ dispatch s msg)
      ↔ msg.hasAudio = true
        ∧ ∃ c, c ∈ s.audioList ∧ c.tag = t ∧ scopeHit c.chatIDs msg.chatId = true := by
  constructor
  · rintro ⟨h, hx⟩
    unfold dispatch at hx
    rw [List.mem_append] at hx
    rcases hx with hx | hx
    · rw [List.mem_append] at hx
      rcases hx with hx | hx
      · rw [List.mem_append] at hx
        rcases hx with hx | hx
        · rcases cmdStage_shape _ hx with h1 | ⟨_, h1⟩ | ⟨_, _, h1⟩ | ⟨_, h1⟩ | ⟨_, _, h1⟩ <;>
            cases h1
        · split at hx
          · rcases patStage_shape _ _ _ hx with h1 | ⟨_, _, _, h1⟩ | ⟨_, _, h1⟩ | ⟨_, h1⟩
              | ⟨_, _, _, h1⟩ <;> cases h1
          · simp at hx
      · by_cases haud : msg.hasAudio = true
        · rw [if_pos haud] at hx
          rcases audioStage_mem.mp hx with ⟨c, hc, hs, h1⟩
          cases h1
          exact ⟨haud, c, hc, rfl, hs⟩
        · rw [if_neg haud] at hx
          simp at hx
    · rcases anyStage_mem.mp hx with ⟨c, _, _, h1⟩
      cases h1
  · rintro ⟨haud, c, hc, rfl, hs⟩
    refine ⟨handledAfterPats s msg, ?_⟩
    unfold dispatch
    rw [List.mem_append]
    refine Or.inl ?_
    rw [List.mem_append]
    refine Or.inr ?_
    rw [if_pos haud]
    exact audioStage_mem.mpr ⟨c, hc, hs, rfl⟩

/-- C3 (amended): a catch-all registered with empty chat scope is invoked
for every inbound event regardless of the originating chat — for the
authorized chat A and equally for the unauthorized chat B, since the
catch-all loop performs no authorization check — while a catch-all scoped to
`[B]` is invoked exactly for events from B. -/
theorem catchall_scope_membership (s : State) (msg : Msg) (t : Nat) :
    (∃ h, Call.anyCall t h ∈ dispatch s msg)
      ↔ ∃ c, c ∈ s.anyList ∧ c.tag = t ∧ scopeHit c.chatIDs msg.chatId = true :=
  dispatch_anyCall_mem

/-- Counterexample for C3 as stated: chat 2 is not authorized in `s3`, yet
the catch-all with empty scope fires for its event. -/
theorem catchall_fires_for_unauthorized_chat :
    (getValidChats s3).contains msg3.chatId = false
  ∧ dispatch s3 msg3 = [Call.anyCall 0 false]
  ∧ Call.anyCall 0 false ∈ dispatch s3 msg3 := by
  refine ⟨by decide, by decide, by decide⟩

lemma validCommand_stale {s : State} {msg : Msg} {ids : List Int} {rgx : Bool}
    (h : msg.date * 1000 < s.startTimeMs) :
    validCommand s msg ids rgx = (false, []) := by
  simp [validCommand, h]

lemma commandBase_stale {s : State} {c : CmdEntry} {msg : Msg}
    (h : msg.date * 1000 < s.startTimeMs) :
    commandBase s c msg = [] := by
  simp [commandBase, validCommand_stale h]

lemma regexBase_stale {s : State} {p : PatEntry} {msg : Msg} {hb : Bool} {r : Nat}
    (h : msg.date * 1000 < s.startTimeMs) :
    regexBase s p msg hb r = [] := by
  simp [regexBase, validCommand_stale h]

lemma patStage_stale_shape {s : State} {msg : Msg}
    (hst : msg.date * 1000 < s.startTimeMs) :
    ∀ (l : List PatEntry) (h : Bool), ∀ x ∈ patStage s msg l h,
      x = Call.delMention ∨ ∃ t h2 r2, x = Call.patStored t h2 r2 := by
  intro l
  induction l with
  | nil =>
    intro h x hx
    simp [patStage] at hx
  | cons p rest ih =>
    intro h x hx
    simp only [patStage] at hx
    cases hp : p.pexec (getText msg) with
    | none =>
      rw [hp] at hx
      exact ih h x hx
    | some r =>
      rw [hp] at hx
      simp only [List.mem_append, List.mem_cons] at hx
      rcases hx with (hx | hx | hx) | hx
      · exact Or.inl (delMentionCalls_shape x hx)
      · exact Or.inr ⟨_, _, _, hx⟩
      · rw [regexBase_stale hst] at hx
        simp at hx
      · exact ih true x hx

lemma cmdStage_stale_shape {s : State} {msg : Msg}
    (hst : msg.date * 1000 < s.startTimeMs) :
    ∀ x ∈ cmdStage s msg, x = Call.delMention ∨ ∃ t, x = Call.cmdStored t := by
  intro x hx
  simp only [cmdStage] at hx
  split at hx
  case h_1 c heq =>
    rw [commandBase_stale hst] at hx
    simp only [List.mem_append, List.mem_cons] at hx
    rcases hx with hx | hx | hx
    · exact Or.inl (delMentionCalls_shape x hx)
    · exact Or.inr ⟨_, hx⟩
    · simp at hx
  case h_2 => simp at hx

/-- C1 (amended): an event whose origination timestamp predates the start
time never reaches a registered command or pattern callback, triggers no
invalid handler and no unauthorized report (the gate drops it first) — but
the audio and catch-all loops are not gated: their handlers are still
invoked for the stale event exactly according to their scopes. -/
theorem stale_event_handler_calls (s : State) (msg : Msg)
    (hstale : msg.date * 1000 < s.startTimeMs) :
    (∀ x ∈ dispatch s msg,
        isUserCmd x = false ∧ isUserPat x = false
          ∧ isInvalid x = false ∧ isReport x = false)
  ∧ (∀ t, (∃ h, Call.anyCall t h ∈ dispatch s msg)
        ↔ ∃ c, c ∈ s.anyList ∧ c.tag = t ∧ scopeHit c.chatIDs msg.chatId = true)
  ∧ (∀ t, (∃ h, Call.audio t h ∈ dispatch s msg)
        ↔ msg.hasAudio = true
          ∧ ∃ c, c ∈ s.audioList ∧ c.tag = t ∧ scopeHit c.chatIDs msg.chatId = true) := by
  refine ⟨?_, fun t => dispatch_anyCall_mem, fun t => dispatch_audio_mem⟩
  intro x hx
  unfold dispatch at hx
  rw [List.mem_append] at hx
  rcases hx with hx | hx
  · rw [List.mem_append] at hx
    rcases hx with hx | hx
    · rw [List.mem_append] at hx
      rcases hx with hx | hx
      · rcases cmdStage_stale_shape hstale x hx with rfl | ⟨t, rfl⟩ <;>
          exact ⟨rfl, rfl, rfl, rfl⟩
      · split at hx
        · rcases patStage_stale_shape hstale _ _ x hx with rfl | ⟨t, h2, r2, rfl⟩ <;>
            exact ⟨rfl, rfl, rfl, rfl⟩
        · simp at hx
    · split at hx
      · rcases audioStage_mem.mp hx with ⟨c, _, _, rfl⟩
        exact ⟨rfl, rfl, rfl, rfl⟩
      · simp at hx
  · rcases anyStage_mem.mp hx with ⟨c, _, _, rfl⟩
    exact ⟨rfl, rfl, rfl, rfl⟩

/-- Counterexample for C1 as stated: the event is stale and its text matches
the registered command `ping`, yet the catch-all callback is invoked. -/
theorem stale_event_catchall_fires :
    staleMsg.date * 1000 < s1.startTimeMs
  ∧ (lookupCmd s1.commandList (toLowerStr (extractCommand (getText staleMsg)))).isSome = true
  ∧ dispatch s1 staleMsg = [Call.cmdStored 1, Call.anyCall 0 true]
  ∧ Call.anyCall 0 true ∈ dispatch s1 staleMsg := by
  refine ⟨by decide, by decide, by decide, by decide⟩

/-- Witness for C1 at the concrete stale scenario of `s1`. -/
theorem stale_event_handler_calls_witness :
    staleMsg.date * 1000 < s1.startTimeMs
  ∧ ((∀ x ∈ dispatch s1 staleMsg,
        isUserCmd x = false ∧ isUserPat x = false
          ∧ isInvalid x = false ∧ isReport x = false)
     ∧ (∀ t, (∃ h, Call.anyCall t h ∈ dispatch s1 staleMsg)
          ↔ ∃ c, c ∈ s1.anyList ∧ c.tag = t ∧ scopeHit c.chatIDs staleMsg.chatId = true)
     ∧ (∀ t, (∃ h, Call.audio t h ∈ dispatch s1 staleMsg)
          ↔ staleMsg.hasAudio = true
            ∧ ∃ c, c ∈ s1.audioList ∧ c.tag = t
                ∧ scopeHit c.chatIDs staleMsg.chatId = true)) :=
  ⟨by decide, stale_event_handler_calls s1 staleMsg (by decide)⟩

lemma delMentionCalls_filter_patStored {msg : Msg} :
    (delMentionCalls msg).filter isPatStored = [] := by
  unfold delMentionCalls
  split <;> rfl

lemma regexBase_filter_patStored {s : State} {p : PatEntry} {msg : Msg} {hb : Bool} {r : Nat} :
    (regexBase s p msg hb r).filter isPatStored = [] := by
  rw [List.filter_eq_nil_iff]
  intro x hx
  rcases regexBase_shape x hx with ⟨_, _, rfl⟩ | ⟨_, rfl⟩ | ⟨_, _, _, rfl⟩ <;> simp [isPatStored]

lemma cmdStage_filter_patStored {s : State} {msg : Msg} :
    (cmdStage s msg).filter isPatStored = [] := by
  rw [List.filter_eq_nil_iff]
  intro x hx
  rcases cmdStage_shape x hx with rfl | ⟨_, rfl⟩ | ⟨_, _, rfl⟩ | ⟨_, rfl⟩ | ⟨_, _, rfl⟩ <;>
    simp [isPatStored]

lemma audioStage_filter_patStored {msg : Msg} {l : List AnyEntry} {h : Bool} :
    (audioStage msg l h).filter isPatStored = [] := by
  rw [List.filter_eq_nil_iff]
  intro x hx
  rcases audioStage_mem.mp hx with ⟨c, _, _, rfl⟩
  simp [isPatStored]

lemma anyStage_filter_patStored {msg : Msg} {l : List AnyEntry} {h : Bool} :
    (anyStage msg l h).filter isPatStored = [] := by
  rw [List.filter_eq_nil_iff]
  intro x hx
  rcases anyStage_mem.mp hx with ⟨c, _, _, rfl⟩
  simp [isPatStored]

lemma ite_audio_filter_patStored {msg : Msg} {l : List AnyEntry} {h : Bool} {c : Prop}
    [Decidable c] :
    (if c then audioStage msg l h else []).filter isPatStored = [] := by
  split
  · exact audioStage_filter_patStored
  · rfl

lemma patStage_filter {s : State} {msg : Msg} :
    ∀ (l : List PatEntry) (h : Bool),
      (patStage s msg l h).filter isPatStored = expectedPat l (getText msg) h := by
  intro l
  induction l with
  | nil => intro h; rfl
  | cons p rest ih =>
    intro h
    simp only [patStage, expectedPat]
    cases hp : p.pexec (getText msg) with
    | none => exact ih h
    | some r =>
      rw [List.filter_append, List.filter_append, delMentionCalls_filter_patStored,
        List.filter_cons]
      have hps : isPatStored (Call.patStored p.tag h r) = true := rfl
      rw [hps]
      simp only [if_true, List.nil_append]
      rw [regexBase_filter_patStored, ih true]
      rfl

/-- C7: for a text-bearing event whose extracted, case-folded command token
is registered, the dispatcher invokes the stored command callback and no
pattern callback of either level fires; otherwise the stored pattern
callbacks that fire are exactly the matching patterns in registration order
without short-circuiting, the first receiving `handled = false` and each
subsequent one `handled = true`, together with its own match result
(`expectedPat`). -/
theorem command_pattern_precedence (s : State) (msg : Msg) (t : List Char)
    (ht : msg.text = some t) (hne : t ≠ []) :
    (∀ c, lookupCmd s.commandList (toLowerStr (extractCommand t)) = some c →
        Call.cmdStored c.tag ∈ dispatch s msg
        ∧ ∀ x ∈ dispatch s msg, isPatStored x = false ∧ isUserPat x = false)
  ∧ (lookupCmd s.commandList (toLowerStr (extractCommand t)) = none →
        (dispatch s msg).filter isPatStored = expectedPat s.regexList t false) := by
  have hemp : t.isEmpty = false := by
    cases t with
    | nil => exact absurd rfl hne
    | cons a t' => rfl
  have htt : textTruthy msg = true := by
    simp [textTruthy, ht, hemp]
  have hgt : getText msg = t := by
    simp [getText, ht]
  constructor
  · intro c hc
    have hch : cmdHandled s msg = true := by
      simp [cmdHandled, htt, hgt, hc]
    have hstage : cmdStage s msg
        = delMentionCalls msg ++ Call.cmdStored c.tag :: commandBase s c msg := by
      simp [cmdStage, htt, hgt, hc]
    constructor
    · unfold dispatch
      rw [List.mem_append]
      refine Or.inl ?_
      rw [List.mem_append]
      refine Or.inl ?_
      rw [List.mem_append]
      refine Or.inl ?_
      rw [hstage, List.mem_append]
      exact Or.inr (List.mem_cons_self _ _)
    · intro x hx
      have hcond : (textTruthy msg && !cmdHandled s msg) = false := by
        rw [htt, hch]
        rfl
      unfold dispatch at hx
      rw [List.mem_append] at hx
      rcases hx with hx | hx
      · rw [List.mem_append] at hx
        rcases hx with hx | hx
        · rw [List.mem_append] at hx
          rcases hx with hx | hx
          · rcases cmdStage_shape x hx with rfl | ⟨_, rfl⟩ | ⟨_, _, rfl⟩ | ⟨_, rfl⟩
              | ⟨_, _, rfl⟩ <;> exact ⟨rfl, rfl⟩
          · rw [hcond] at hx
            simp at hx
        · split at hx
          · rcases audioStage_mem.mp hx with ⟨_, _, _, rfl⟩
            exact ⟨rfl, rfl⟩
          · simp at hx
      · rcases anyStage_mem.mp hx with ⟨_, _, _, rfl⟩
        exact ⟨rfl, rfl⟩
  · intro hc
    have hch : cmdHandled s msg = false := by
      simp [cmdHandled, htt, hgt, hc]
    have hstage : cmdStage s msg = [] := by
      simp [cmdStage, htt, hgt, hc]
    have hcond : (textTruthy msg && !cmdHandled s msg) = true := by
      rw [htt, hch]
      rfl
    unfold dispatch
    rw [hstage, if_pos hcond, List.nil_append, List.filter_append, List.filter_append,
      ite_audio_filter_patStored, anyStage_filter_patStored, patStage_filter, hgt]
    simp

/-- Witness for C7 at the `/ping` registration of `s7`. -/
theorem command_pattern_precedence_witness :
    (msg7.text = some ("/ping".toList) ∧ "/ping".toList ≠ ([] : List Char))
  ∧ ((∀ c, lookupCmd s7.commandList (toLowerStr (extractCommand ("/ping".toList)))
          = some c →
        Call.cmdStored c.tag ∈ dispatch s7 msg7
        ∧ ∀ x ∈ dispatch s7 msg7, isPatStored x = false ∧ isUserPat x = false)
     ∧ (lookupCmd s7.commandList (toLowerStr (extractCommand ("/ping".toList))) = none →
        (dispatch s7 msg7).filter isPatStored = expectedPat s7.regexList ("/ping".toList) false)) :=
  ⟨⟨rfl, by decide⟩, command_pattern_precedence s7 msg7 _ rfl (by decide)⟩

end Telewrapper
